import Mathlib

/-!
Verification development for the Xuehua engine (Planner / Builder / Store).

Each definition is a shallow embedding of a function of the repository,
named after its source where Lean permits.  Machine integers are modelled
as Nat (the operations verified here never overflow their Rust types),
Rust strings as List Char, byte strings as List Nat, and fallible code as
Option / Except.  External collaborators (the Lua scripting layer, SQLite,
the filesystem, the blake3 hash) are modelled at their interface: the Lua
thunks are opaque, SQLite tables are row lists with the declared schema,
and blake3 is an arbitrary function parameter of the byte stream.
-/

namespace Xuehua

/-! ## Package identifiers — src/engine/src/package/id.rs

A PackageId is a name together with a namespace, a sequence of tokens.
The Rust field namespace is called nspace here (namespace is a Lean keyword).
-/

structure PackageId where
  name : List Char
  nspace : List (List Char)
deriving DecidableEq, Repr

/-- Rust str::split_once with a one-character pattern: splits the string at
the first occurrence of the separator, or returns none when absent. -/
def splitOnce (sep : Char) : List Char → Option (List Char × List Char)
  | [] => none
  | c :: cs =>
    if c = sep then some ([], cs)
    else
      match splitOnce sep cs with
      | none => none
      | some (l, r) => some (c :: l, r)

/-- Rust str::split with a one-character pattern: the empty string yields one
empty piece, and each separator starts a new piece. -/
def splitParts (sep : Char) : List Char → List (List Char)
  | [] => [[]]
  | c :: cs =>
    match splitParts sep cs with
    | [] => [[]]
    | cur :: rest => if c = sep then [] :: cur :: rest else (c :: cur) :: rest

/-- Tail of Rust slice join: every remaining part is preceded by the separator. -/
def joinTail (sep : Char) : List (List Char) → List Char
  | [] => []
  | t :: ts => (sep :: t) ++ joinTail sep ts

/-- Rust Vec::join on string slices. -/
def joinSep (sep : Char) : List (List Char) → List Char
  | [] => []
  | t :: ts => t ++ joinTail sep ts

/-- The Display impl of PackageId: name, an at sign, then the namespace
tokens joined by slashes. -/
def PackageId.render (id : PackageId) : List Char :=
  id.name ++ '@' :: joinSep '/' id.nspace

/-- The FromStr impl of PackageId: split once at the first at sign; the part
before it is the name, the part after it is split on slashes into the
namespace tokens.  Fails exactly when the string has no at sign. -/
def PackageId.fromStr (s : List Char) : Option PackageId :=
  match splitOnce '@' s with
  | none => none
  | some (n, rest) => some ⟨n, splitParts '/' rest⟩

theorem splitParts_ne_nil (sep : Char) (s : List Char) : splitParts sep s ≠ [] := by
  cases s with
  | nil => simp [splitParts]
  | cons c cs =>
    simp only [splitParts]
    cases h : splitParts sep cs with
    | nil => simp
    | cons cur rest =>
      by_cases hc : c = sep <;> simp [hc]

theorem splitOnce_not_mem {sep : Char} {s : List Char} (h : sep ∉ s) :
    splitOnce sep s = none := by
  induction s with
  | nil => rfl
  | cons c cs ih =>
    have h1 : ¬ c = sep := fun hc => h (hc ▸ List.mem_cons_self c cs)
    have h2 : sep ∉ cs := fun hm => h (List.mem_cons_of_mem _ hm)
    simp [splitOnce, h1, ih h2]

theorem splitOnce_append {sep : Char} {l : List Char} (r : List Char) (h : sep ∉ l) :
    splitOnce sep (l ++ sep :: r) = some (l, r) := by
  induction l with
  | nil => simp [splitOnce]
  | cons c cs ih =>
    have h1 : ¬ c = sep := fun hc => h (hc ▸ List.mem_cons_self c cs)
    have h2 : sep ∉ cs := fun hm => h (List.mem_cons_of_mem _ hm)
    simp [splitOnce, h1, ih h2]

theorem splitParts_single {sep : Char} {t : List Char} (h : sep ∉ t) :
    splitParts sep t = [t] := by
  induction t with
  | nil => rfl
  | cons c cs ih =>
    have h1 : ¬ c = sep := fun hc => h (hc ▸ List.mem_cons_self c cs)
    have h2 : sep ∉ cs := fun hm => h (List.mem_cons_of_mem _ hm)
    simp [splitParts, ih h2, h1]

theorem splitParts_append {sep : Char} {t : List Char} (rest : List Char) (h : sep ∉ t) :
    splitParts sep (t ++ sep :: rest) = t :: splitParts sep rest := by
  induction t with
  | nil =>
    simp only [List.nil_append, splitParts]
    cases hr : splitParts sep rest with
    | nil => exact absurd hr (splitParts_ne_nil sep rest)
    | cons cur r2 => simp
  | cons c cs ih =>
    have h1 : ¬ c = sep := fun hc => h (hc ▸ List.mem_cons_self c cs)
    have h2 : sep ∉ cs := fun hm => h (List.mem_cons_of_mem _ hm)
    simp only [List.cons_append, splitParts, List.append_eq]
    rw [ih h2]
    simp [h1]

theorem splitParts_joinSep {ts : List (List Char)} (sep : Char) (hne : ts ≠ [])
    (htok : ∀ t ∈ ts, sep ∉ t) : splitParts sep (joinSep sep ts) = ts := by
  induction ts with
  | nil => exact absurd rfl hne
  | cons t ts ih =>
    cases ts with
    | nil =>
      simp only [joinSep, joinTail, List.append_nil]
      exact splitParts_single (htok t (by simp))
    | cons u us =>
      have hjoin : joinSep sep (t :: u :: us) = t ++ sep :: joinSep sep (u :: us) := by
        simp [joinSep, joinTail]
      rw [hjoin, splitParts_append _ (htok t (by simp))]
      rw [ih (by simp) (fun x hx => htok x (List.mem_cons_of_mem _ hx))]

/-- C10 (amended): parsing a rendered PackageId round-trips when the name has
no at sign and the namespace is a nonempty list of nonempty tokens without
slashes; an id with an empty namespace whose name has no at sign renders as
the name followed by a bare at sign and parses back to a namespace holding
one empty token; and parsing fails on every string without an at sign. -/
theorem packageId_roundtrip :
    (∀ id : PackageId, '@' ∉ id.name → id.nspace ≠ [] →
      (∀ t ∈ id.nspace, '/' ∉ t) → (∀ t ∈ id.nspace, t ≠ []) →
      PackageId.fromStr (PackageId.render id) = some id) ∧
    (∀ id : PackageId, '@' ∉ id.name → id.nspace = [] →
      PackageId.render id = id.name ++ ['@'] ∧
      PackageId.fromStr (PackageId.render id) = some ⟨id.name, [[]]⟩) ∧
    (∀ s : List Char, '@' ∉ s → PackageId.fromStr s = none) := by
  refine ⟨?_, ?_, ?_⟩
  · intro id h1 h2 h3 _h4
    simp only [PackageId.fromStr, PackageId.render, splitOnce_append _ h1]
    rw [splitParts_joinSep '/' h2 h3]
  · intro id h1 h2
    constructor
    · simp [PackageId.render, h2, joinSep]
    · simp only [PackageId.render, h2, joinSep, PackageId.fromStr, splitOnce_append _ h1]
      rfl
  · intro s hs
    simp [PackageId.fromStr, splitOnce_not_mem hs]

/-- C10 witness: the round-trip theorem evaluated at concrete ids. -/
theorem packageId_roundtrip_witness :
    PackageId.fromStr (PackageId.render ⟨['p'], [['c', 'o', 'r', 'e']]⟩) =
      some ⟨['p'], [['c', 'o', 'r', 'e']]⟩ ∧
    PackageId.fromStr (PackageId.render ⟨['p'], []⟩) = some ⟨['p'], [[]]⟩ ∧
    PackageId.fromStr ['p'] = none :=
  ⟨packageId_roundtrip.1 ⟨['p'], [['c', 'o', 'r', 'e']]⟩ (by decide) (by decide)
      (by decide) (by decide),
   (packageId_roundtrip.2.1 ⟨['p'], []⟩ (by decide) rfl).2,
   packageId_roundtrip.2.2 ['p'] (by decide)⟩

/-- C10 counterexample: the id with name a@b and empty namespace renders as
a@b@, which parses back to name a with the namespace holding the single
nonempty token b@ — not a namespace holding one empty token, as the claim
states for every id with an empty namespace. -/
theorem packageId_empty_ns_cex :
    PackageId.fromStr (PackageId.render ⟨['a', '@', 'b'], []⟩) =
      some ⟨['a'], [['b', '@']]⟩ ∧
    ([['b', '@']] : List (List Char)) ≠ [[]] := by
  exact ⟨by decide, by decide⟩

/-! ## The Planner — src/engine/src/planner.rs

The Plan is a labeled directed graph: vertices are packages (their script
payloads — metadata, thunks, configuration — are opaque Lua values and do not
influence the Planner control flow modelled here), edges carry a LinkTime.
Vertices are numbered by insertion order, exactly like petgraph NodeIndex
values, and edges are kept as (source, target, weight) triples in insertion
order. -/

inductive LinkTime
  | runtime
  | buildtime
deriving DecidableEq, Repr

/-- Targets of the edges leaving u, in edge order (petgraph outgoing
neighbors of a directed graph, one entry per edge). -/
def succsOf (edges : List (Nat × Nat × LinkTime)) (u : Nat) : List Nat :=
  (edges.filter (fun e => e.1 == u)).map (fun e => e.2.1)

/-- One expansion step of forward reachability: keep the set and add every
successor of its members. -/
def stepSet (edges : List (Nat × Nat × LinkTime)) (s : List Nat) : List Nat :=
  (s ++ s.flatMap (succsOf edges)).dedup

/-- All vertices reachable from a by following edges forward; iterating one
step per edge saturates, since each useful step adds a vertex through a
fresh edge. -/
def reachFrom (edges : List (Nat × Nat × LinkTime)) (a : Nat) : List Nat :=
  Nat.iterate (stepSet edges) edges.length [a]

/-- Modelled semantics of petgraph Acyclic::try_add_edge, the cycle check of
the Plan: inserting the edge (src, dst) is rejected exactly when it would
close a cycle, i.e. when src = dst or src is already reachable from dst. -/
def wouldCycle (edges : List (Nat × Nat × LinkTime)) (src dst : Nat) : Bool :=
  src == dst || (reachFrom edges dst).contains src

/-- A Plan vertex; of the Rust Package only the id is relevant to the
Planner (the rest is opaque script data). -/
structure PlanPackage where
  id : PackageId
deriving DecidableEq, Repr

instance : Inhabited PlanPackage := ⟨⟨⟨[], []⟩⟩⟩

inductive PlannerError
  | notFound (node : Nat)
  | conflict (package : PackageId)
  | cycle (fromId toId : PackageId)
deriving DecidableEq, Repr

/-- Planner state: the plan graph, the namespace stack (top at the end, as a
Rust Vec), and the set of registered ids. -/
structure Planner where
  nodes : List PlanPackage
  edges : List (Nat × Nat × LinkTime)
  nstack : List (List Char)
  registered : List PackageId
deriving DecidableEq, Repr

def Planner.empty : Planner := ⟨[], [], [], []⟩

/-- The dependency-edge loop of Planner::package: one try_add_edge per
dependency, in order; on rejection the error carries the ids of the current
node and of the dependency node. -/
def addDepEdges (nodes : List PlanPackage) (node : Nat) :
    List (Nat × Nat × LinkTime) → List (Nat × LinkTime) →
    Except PlannerError (List (Nat × Nat × LinkTime))
  | edges, [] => .ok edges
  | edges, (d, t) :: rest =>
    if wouldCycle edges node d then
      .error (.cycle (nodes.getD node default).id (nodes.getD d default).id)
    else
      addDepEdges nodes node (edges ++ [(node, d, t)]) rest

/-- Planner::package: stamp the current namespace stack onto the id, fail
with Conflict when the id is already registered, otherwise add the vertex
and one edge per dependency. -/
def Planner.package (p : Planner) (name : List Char) (deps : List (Nat × LinkTime)) :
    Except PlannerError (Planner × Nat) :=
  let id : PackageId := ⟨name, p.nstack⟩
  if p.registered.contains id then
    .error (.conflict id)
  else
    let node := p.nodes.length
    let nodes := p.nodes ++ [⟨id⟩]
    match addDepEdges nodes node p.edges deps with
    | .error e => .error e
    | .ok edges =>
      .ok (⟨nodes, edges, p.nstack, p.registered ++ [id]⟩, node)

/-- Planner::configure: clone the source vertex, rename it (the namespace of
the clone stays that of the source), and add it as a new vertex.  The clone
gets no edges, and its id is neither checked against nor added to the
registered set.  Running the apply thunk only touches opaque script data. -/
def Planner.configure (p : Planner) (source : Nat) (destination : List Char) :
    Except PlannerError (Planner × Nat) :=
  match p.nodes.get? source with
  | none => .error (.notFound source)
  | some pkg =>
    .ok (⟨p.nodes ++ [⟨⟨destination, pkg.id.nspace⟩⟩], p.edges, p.nstack, p.registered⟩,
      p.nodes.length)

/-- One scripting-layer call into the Planner.  A namespace closure is
flattened into a push and a pop around its body. -/
inductive POp
  | pkg (name : List Char) (deps : List (Nat × LinkTime))
  | config (source : Nat) (destination : List Char)
  | pushNs (token : List Char)
  | popNs
deriving DecidableEq, Repr

/-- Run a sequence of Planner calls from a script.  Any error aborts the run
(planner errors surface out of the script host).  Handles passed as
dependencies are node indices previously returned by the Planner, hence
always below the current vertex count; a sequence violating that could not
have been produced by a script (indexing the plan would panic), and the run
is modelled as none. -/
def runOps : Planner → List POp → Option (Except PlannerError Planner)
  | p, [] => some (.ok p)
  | p, op :: rest =>
    match op with
    | .pkg name deps =>
      if deps.all (fun d => d.1 < p.nodes.length) then
        match p.package name deps with
        | .error e => some (.error e)
        | .ok (p2, _) => runOps p2 rest
      else none
    | .config src dest =>
      match p.configure src dest with
      | .error e => some (.error e)
      | .ok (p2, _) => runOps p2 rest
    | .pushNs t => runOps ⟨p.nodes, p.edges, p.nstack ++ [t], p.registered⟩ rest
    | .popNs => runOps ⟨p.nodes, p.edges, p.nstack.dropLast, p.registered⟩ rest

theorem stepSet_bound {edges : List (Nat × Nat × LinkTime)}
    (h : ∀ e ∈ edges, e.2.1 < e.1) {s : List Nat} {a : Nat}
    (hs : ∀ y ∈ s, y ≤ a) : ∀ x ∈ stepSet edges s, x ≤ a := by
  intro x hx
  simp only [stepSet, List.mem_dedup, List.mem_append, List.mem_flatMap] at hx
  rcases hx with hx | ⟨u, hu, hxs⟩
  · exact hs x hx
  · simp only [succsOf, List.mem_map, List.mem_filter] at hxs
    rcases hxs with ⟨e, ⟨he, heu⟩, rfl⟩
    have h1 : e.2.1 < e.1 := h e he
    have h2 : e.1 = u := by simpa using heu
    have h3 : u ≤ a := hs u hu
    omega

theorem iterate_stepSet_bound {edges : List (Nat × Nat × LinkTime)}
    (h : ∀ e ∈ edges, e.2.1 < e.1) {a : Nat} :
    ∀ k (s : List Nat), (∀ y ∈ s, y ≤ a) →
      ∀ x ∈ Nat.iterate (stepSet edges) k s, x ≤ a := by
  intro k
  induction k with
  | zero => intro s hs; simpa using hs
  | succ k ih =>
    intro s hs
    rw [Function.iterate_succ_apply]
    exact ih (stepSet edges s) (stepSet_bound h hs)

theorem reachFrom_bound {edges : List (Nat × Nat × LinkTime)}
    (h : ∀ e ∈ edges, e.2.1 < e.1) (a : Nat) :
    ∀ x ∈ reachFrom edges a, x ≤ a :=
  iterate_stepSet_bound h edges.length [a] (by simp)

theorem wouldCycle_false {edges : List (Nat × Nat × LinkTime)}
    (h : ∀ e ∈ edges, e.2.1 < e.1) {src dst : Nat} (hlt : dst < src) :
    wouldCycle edges src dst = false := by
  have h2 : src ∉ reachFrom edges dst := by
    intro hmem
    have := reachFrom_bound h dst src hmem
    omega
  have h1 : src ≠ dst := by omega
  simp [wouldCycle, h1, h2]

theorem addDepEdges_ok {nodes : List PlanPackage} {node : Nat} :
    ∀ deps edges, (∀ e ∈ edges, e.2.1 < e.1 ∧ e.1 ≤ node) →
    (∀ d ∈ deps, d.1 < node) →
    ∃ edges2, addDepEdges nodes node edges deps = .ok edges2 ∧
      ∀ e ∈ edges2, e.2.1 < e.1 ∧ e.1 ≤ node := by
  intro deps
  induction deps with
  | nil => intro edges he _; exact ⟨edges, rfl, he⟩
  | cons d rest ih =>
    intro edges he hd
    obtain ⟨d1, t⟩ := d
    have hbelow : ∀ e ∈ edges, e.2.1 < e.1 := fun e hmem => (he e hmem).1
    have hd1 : d1 < node := hd (d1, t) (by simp)
    have hwc : wouldCycle edges node d1 = false := wouldCycle_false hbelow hd1
    have he2 : ∀ e ∈ edges ++ [(node, d1, t)], e.2.1 < e.1 ∧ e.1 ≤ node := by
      intro e hmem
      rcases List.mem_append.1 hmem with hmem | hmem
      · exact he e hmem
      · simp only [List.mem_singleton] at hmem
        subst hmem
        exact ⟨hd1, le_refl _⟩
    obtain ⟨edges2, heq, hinv⟩ :=
      ih (edges ++ [(node, d1, t)]) he2 (fun x hx => hd x (List.mem_cons_of_mem _ hx))
    exact ⟨edges2, by simp [addDepEdges, hwc, heq], hinv⟩

/-- Invariant of every Planner state reachable through the public API: each
edge points from a newer vertex to a strictly older one. -/
def PlanInv (p : Planner) : Prop :=
  ∀ e ∈ p.edges, e.2.1 < e.1 ∧ e.1 < p.nodes.length

/-- Case analysis of Planner::package under valid handles: it either
rejects a duplicate id or succeeds, and success preserves the edge
invariant.  It never returns the cycle error. -/
theorem package_cases (p : Planner) (name : List Char) (deps : List (Nat × LinkTime))
    (hdeps : ∀ d ∈ deps, d.1 < p.nodes.length) (hp : PlanInv p) :
    Planner.package p name deps = .error (.conflict ⟨name, p.nstack⟩) ∨
    (∃ p2 n, Planner.package p name deps = .ok (p2, n) ∧ PlanInv p2) := by
  by_cases hconf : (⟨name, p.nstack⟩ : PackageId) ∈ p.registered
  · left
    simp [Planner.package, hconf]
  · right
    have hinv : ∀ e ∈ p.edges, e.2.1 < e.1 ∧ e.1 ≤ p.nodes.length := by
      intro e he
      have := hp e he
      omega
    obtain ⟨edges2, heq, hinv2⟩ :=
      @addDepEdges_ok (p.nodes ++ [⟨⟨name, p.nstack⟩⟩]) p.nodes.length deps p.edges hinv hdeps
    refine ⟨⟨p.nodes ++ [⟨⟨name, p.nstack⟩⟩], edges2, p.nstack,
      p.registered ++ [⟨name, p.nstack⟩]⟩, p.nodes.length, ?_, ?_⟩
    · simp [Planner.package, hconf, heq]
    · intro e he
      have := hinv2 e he
      simp only [List.length_append, List.length_singleton]
      omega

/-- Whether a Planner result is the cycle error. -/
def isCycle : Except PlannerError Planner → Bool
  | .error (.cycle _ _) => true
  | _ => false

theorem runOps_no_cycle :
    ∀ ops (p : Planner), PlanInv p →
      (runOps p ops).all (fun r => !isCycle r) = true := by
  intro ops
  induction ops with
  | nil => intro p _; rfl
  | cons op rest ih =>
    intro p hp
    cases op with
    | pkg name deps =>
      simp only [runOps]
      split
      · next hvalid =>
          have hdeps : ∀ d ∈ deps, d.1 < p.nodes.length := by
            intro d hd
            simpa using List.all_eq_true.1 hvalid d hd
          rcases package_cases p name deps hdeps hp with heq | ⟨p2, n, heq, hinv2⟩
          · rw [heq]
            rfl
          · rw [heq]
            exact ih p2 hinv2
      · rfl
    | config src dest =>
      simp only [runOps, Planner.configure]
      cases hget : p.nodes.get? src with
      | none => rfl
      | some pkg =>
        apply ih
        intro e he
        have := hp e he
        simp only [List.length_append, List.length_singleton]
        omega
    | pushNs t =>
      simp only [runOps]
      exact ih _ (fun e he => hp e he)
    | popNs =>
      simp only [runOps]
      exact ih _ (fun e he => hp e he)

/-- C7 (amended): no sequence of Planner calls can make the Planner fail
with the cycle error.  Every edge the public API inserts starts at the
vertex being created and ends at a strictly older vertex, so try_add_edge
never rejects an edge; in particular the scripted attempt to build the
cycle a to b to a fails earlier, with the Conflict error at the duplicate
registration of a. -/
theorem planner_cycle_unreachable (ops : List POp) :
    (runOps Planner.empty ops).all (fun r => !isCycle r) = true :=
  runOps_no_cycle ops Planner.empty (fun e he => absurd he (by simp [Planner.empty]))

/-- C7 counterexample: the script that attempts the cycle a to b to a
(register a, register b depending on a, re-register a depending on b) fails
with the Conflict error on the duplicate id a, not with the Cycle error the
claim predicts. -/
theorem planner_cycle_attempt_cex :
    runOps Planner.empty
      [POp.pkg ['a'] [], POp.pkg ['b'] [(0, LinkTime.runtime)],
       POp.pkg ['a'] [(1, LinkTime.runtime)]] =
      some (.error (.conflict ⟨['a'], []⟩)) ∧
    isCycle (.error (.conflict ⟨['a'], []⟩)) = false :=
  ⟨rfl, rfl⟩

theorem package_ok_shape {p : Planner} {name : List Char} {deps : List (Nat × LinkTime)}
    {p2 : Planner} {n : Nat} (h : Planner.package p name deps = .ok (p2, n)) :
    p2.nodes = p.nodes ++ [⟨⟨name, p.nstack⟩⟩] ∧
    p2.registered = p.registered ++ [⟨name, p.nstack⟩] ∧
    (⟨name, p.nstack⟩ : PackageId) ∉ p.registered := by
  by_cases hconf : (⟨name, p.nstack⟩ : PackageId) ∈ p.registered
  · simp [Planner.package, hconf] at h
  · cases heq : addDepEdges (p.nodes ++ [⟨⟨name, p.nstack⟩⟩]) p.nodes.length p.edges deps with
    | error e => simp [Planner.package, hconf, heq] at h
    | ok edges2 =>
      simp [Planner.package, hconf, heq] at h
      obtain ⟨h1, h2⟩ := h
      subst h1
      exact ⟨rfl, rfl, hconf⟩

/-- Whether a Planner call is a configure call. -/
def isConfig : POp → Bool
  | .config _ _ => true
  | _ => false

/-- States whose plans have pairwise distinct vertex ids, all recorded in the
registered set. -/
def RegInv (p : Planner) : Prop :=
  (p.nodes.map PlanPackage.id).Nodup ∧ ∀ v ∈ p.nodes, v.id ∈ p.registered

theorem runOps_regInv :
    ∀ ops (p q : Planner), (∀ op ∈ ops, isConfig op = false) → RegInv p →
      runOps p ops = some (.ok q) → RegInv q := by
  intro ops
  induction ops with
  | nil =>
    intro p q _ hreg hrun
    simp only [runOps, Option.some_inj] at hrun
    cases hrun
    exact hreg
  | cons op rest ih =>
    intro p q hops hreg hrun
    cases op with
    | pkg name deps =>
      simp only [runOps] at hrun
      split at hrun
      · cases hpkg : Planner.package p name deps with
        | error e => rw [hpkg] at hrun; simp at hrun
        | ok pr =>
          obtain ⟨p2, n⟩ := pr
          rw [hpkg] at hrun
          obtain ⟨hn, hr, hnot⟩ := package_ok_shape hpkg
          have hmap : p2.nodes.map PlanPackage.id =
              p.nodes.map PlanPackage.id ++ [⟨name, p.nstack⟩] := by
            rw [hn]; simp
          have hnotmap : (⟨name, p.nstack⟩ : PackageId) ∉ p.nodes.map PlanPackage.id := by
            intro hmem
            obtain ⟨v, hv, hvid⟩ := List.mem_map.1 hmem
            exact hnot (hvid ▸ hreg.2 v hv)
          refine ih p2 q (fun o ho => hops o (List.mem_cons_of_mem _ ho)) ⟨?_, ?_⟩ hrun
          · rw [hmap]
            rw [List.nodup_append]
            exact ⟨hreg.1, List.nodup_singleton _,
              fun x hx hx2 => by simp at hx2; exact hnotmap (hx2 ▸ hx)⟩
          · intro v hv
            rw [hn] at hv
            rw [hr]
            rcases List.mem_append.1 hv with hv | hv
            · exact List.mem_append.2 (Or.inl (hreg.2 v hv))
            · simp only [List.mem_singleton] at hv
              subst hv
              exact List.mem_append.2 (Or.inr (by simp))
      · exact absurd hrun (by simp)
    | config src dest =>
      have := hops (POp.config src dest) (by simp)
      simp [isConfig] at this
    | pushNs t =>
      simp only [runOps] at hrun
      exact ih ⟨p.nodes, p.edges, p.nstack ++ [t], p.registered⟩ q
        (fun o ho => hops o (List.mem_cons_of_mem _ ho)) ⟨hreg.1, hreg.2⟩ hrun
    | popNs =>
      simp only [runOps] at hrun
      exact ih ⟨p.nodes, p.edges, p.nstack.dropLast, p.registered⟩ q
        (fun o ho => hops o (List.mem_cons_of_mem _ ho)) ⟨hreg.1, hreg.2⟩ hrun

/-- C6 (amended): Planner::package fails with the Conflict error exactly when
the id (with the current namespace stack applied) is already in the
registered set, and along any call sequence that never uses configure the
plan vertices keep pairwise distinct ids.  Planner::configure adds its clone
without consulting or extending the registered set, so sequences that use it
can duplicate ids. -/
theorem planner_id_unique :
    (∀ (p : Planner) (name : List Char) (deps : List (Nat × LinkTime)),
      (⟨name, p.nstack⟩ : PackageId) ∈ p.registered →
      Planner.package p name deps = .error (.conflict ⟨name, p.nstack⟩)) ∧
    (∀ ops (q : Planner), (∀ op ∈ ops, isConfig op = false) →
      runOps Planner.empty ops = some (.ok q) →
      (q.nodes.map PlanPackage.id).Nodup) := by
  constructor
  · intro p name deps hmem
    simp [Planner.package, hmem]
  · intro ops q hops hrun
    refine (runOps_regInv ops Planner.empty q hops ⟨?_, ?_⟩ hrun).1
    · simp [Planner.empty]
    · intro v hv
      exact absurd hv (by simp [Planner.empty])

/-- C6 witness: the uniqueness theorem evaluated concretely — a duplicate
registration is rejected, and a configure-free run yields distinct ids. -/
theorem planner_id_unique_witness :
    Planner.package ⟨[], [], [], [⟨['a'], []⟩]⟩ ['a'] [] =
      .error (.conflict ⟨['a'], []⟩) ∧
    ((Planner.mk [⟨⟨['a'], []⟩⟩, ⟨⟨['b'], []⟩⟩] [] [] [⟨['a'], []⟩, ⟨['b'], []⟩]).nodes.map
      PlanPackage.id).Nodup :=
  ⟨planner_id_unique.1 ⟨[], [], [], [⟨['a'], []⟩]⟩ ['a'] [] (by decide),
   planner_id_unique.2 [POp.pkg ['a'] [], POp.pkg ['b'] []]
     (Planner.mk [⟨⟨['a'], []⟩⟩, ⟨⟨['b'], []⟩⟩] [] [] [⟨['a'], []⟩, ⟨['b'], []⟩])
     (by decide) rfl⟩

/-- C6 counterexample: configure clones a registered package under an id that
is already taken, yielding a successful run whose plan has two vertices with
the same PackageId. -/
theorem configure_duplicate_id_cex :
    runOps Planner.empty [POp.pkg ['a'] [], POp.config 0 ['a']] =
      some (.ok ⟨[⟨⟨['a'], []⟩⟩, ⟨⟨['a'], []⟩⟩], [], [], [⟨['a'], []⟩]⟩) ∧
    ¬ (([⟨⟨['a'], []⟩⟩, ⟨⟨['a'], []⟩⟩] : List PlanPackage).map PlanPackage.id).Nodup :=
  ⟨rfl, by decide⟩

/-! ## The Builder — src/engine/src/builder.rs

The Builder consumes the Plan graph.  Vertices keep their indices; the build
state lives in a list indexed by vertex.  The Package weight of a vertex is
opaque to the scheduler (it is moved between the states and handed to the
build task), so it is modelled by the vertex index that owns it.  The async
machinery is modelled at its observable seams: the set of futures pushed by
the scheduler becomes the list of BuildInfo values returned by
prepare_build, and the completion order and outcomes of the FuturesUnordered
stream become an explicit list of task results fed to the scheduling loop
one at a time. -/

/-- A Plan graph as the Builder receives it: vertex count and labeled edges
in insertion order. -/
structure BGraph where
  n : Nat
  edges : List (Nat × Nat × LinkTime)
deriving DecidableEq, Repr

/-- Per-node build state.  unbuilt and built carry the Package weight
(modelled by the owning vertex index). -/
inductive PackageState
  | unbuilt (package : Nat) (remaining : Nat)
  | building
  | built (package : Nat) (runtime : List Nat)
deriving DecidableEq, Repr

/-- The payload of one build future. -/
structure BuildInfo where
  node : Nat
  package : Nat
  runtime : List Nat
  buildtime : List Nat
deriving DecidableEq, Repr

/-- BuilderOptions of the source; root is an opaque path. -/
structure BuilderOptions where
  concurrent : Nat
deriving DecidableEq, Repr

/-- Outgoing edges of u, in edge order (petgraph edges_directed Outgoing). -/
def edgesFrom (g : BGraph) (u : Nat) : List (Nat × Nat × LinkTime) :=
  g.edges.filter (fun e => e.1 == u)

/-- Count of outgoing edges of u (one per edge, as the petgraph outgoing
neighbors iterator yields). -/
def outDegree (g : BGraph) (u : Nat) : Nat :=
  (edgesFrom g u).length

/-- Builder::new: every vertex starts Unbuilt with remaining seeded to its
outgoing-edge count. -/
def initStates (g : BGraph) : List PackageState :=
  (List.range g.n).map (fun u => .unbuilt u (outDegree g u))

/-- The dependency-gathering loop of prepare_build: for each outgoing edge,
the Built child contributes its stored runtime list followed by itself to
the runtime or buildtime accumulator according to the edge label.  A child
that is not Built is the invalid_state panic of the source, modelled as
none. -/
def gatherDeps (states : List PackageState) :
    List (Nat × Nat × LinkTime) → List Nat → List Nat → Option (List Nat × List Nat)
  | [], runtime, buildtime => some (runtime, buildtime)
  | e :: rest, runtime, buildtime =>
    match states.get? e.2.1 with
    | some (.built _ depRuntime) =>
      match e.2.2 with
      | .runtime => gatherDeps states rest (runtime ++ depRuntime ++ [e.2.1]) buildtime
      | .buildtime => gatherDeps states rest runtime (buildtime ++ depRuntime ++ [e.2.1])
    | _ => none

/-- Result of Builder::prepare_build: the node is not ready (not Unbuilt
with remaining zero — the normal None of the source), or it is claimed (set
to Building) and a BuildInfo is assembled, or an invalid state was observed
(a panic in the source). -/
inductive PrepResult
  | notReady
  | ready (states : List PackageState) (info : BuildInfo)
  | invalid
deriving DecidableEq, Repr

/-- Builder::prepare_build: claim a node whose remaining count reached zero,
set it to Building, and gather the closures from its outgoing edges. -/
def prepare_build (g : BGraph) (states : List PackageState) (node : Nat) : PrepResult :=
  match states.get? node with
  | some (.unbuilt package 0) =>
    let claimed := states.set node .building
    match gatherDeps claimed (edgesFrom g node) [] [] with
    | some (runtime, buildtime) => .ready claimed ⟨node, package, runtime, buildtime⟩
    | none => .invalid
  | _ => .notReady

/-- Push the not-yet-discovered neighbors onto the depth-first stack,
marking them discovered as they are pushed. -/
def discoverNbrs : List Nat → List Nat → List Nat → List Nat × List Nat
  | [], stack, discovered => (stack, discovered)
  | v :: rest, stack, discovered =>
    if discovered.contains v then discoverNbrs rest stack discovered
    else discoverNbrs rest (v :: stack) (v :: discovered)

/-- Stack-based depth-first traversal over outgoing edges (petgraph Dfs);
the fuel bounds the iteration count, one plus one unit per vertex and per
edge sufficing since every push is a fresh discovery. -/
def dfsAux (g : BGraph) : Nat → List Nat → List Nat → List Nat
  | 0, _, _ => []
  | _ + 1, [], _ => []
  | fuel + 1, u :: stack, discovered =>
    let sd := discoverNbrs (succsOf g.edges u) stack discovered
    u :: dfsAux g fuel sd.1 sd.2

/-- The order in which Builder::build visits the target's reachable
subgraph. -/
def dfsOrder (g : BGraph) (target : Nat) : List Nat :=
  dfsAux g (g.n + g.edges.length + 1) [target] [target]

/-- The first loop of Builder::build: walk the subgraph in visit order,
claiming every ready node and collecting the build futures pushed for them.
Propagates the invalid-state panic as none. -/
def initialPass (g : BGraph) :
    List PackageState → List Nat → Option (List PackageState × List BuildInfo)
  | states, [] => some (states, [])
  | states, u :: rest =>
    match prepare_build g states u with
    | .ready st2 info =>
      match initialPass g st2 rest with
      | some (stF, infos) => some (stF, info :: infos)
      | none => none
    | .notReady => initialPass g states rest
    | .invalid => none

/-- Sources of the edges into v, in edge order (petgraph incoming
neighbors, one per edge). -/
def incomingSources (g : BGraph) (v : Nat) : List Nat :=
  (g.edges.filter (fun e => e.2.1 == v)).map (fun e => e.1)

/-- The parent-notification loop run when a node finishes: each parent in
the subgraph has its remaining count decremented and is claimed if it
became ready.  A parent that is not Unbuilt is the invalid_state panic of
the source, modelled as none. -/
def notifyParents (g : BGraph) :
    List PackageState → List Nat → Option (List PackageState × List BuildInfo)
  | states, [] => some (states, [])
  | states, p :: rest =>
    match states.get? p with
    | some (.unbuilt package remaining) =>
      let st2 := states.set p (.unbuilt package (remaining - 1))
      match prepare_build g st2 p with
      | .ready st3 info =>
        match notifyParents g st3 rest with
        | some (stF, infos) => some (stF, info :: infos)
        | none => none
      | .notReady =>
        match notifyParents g st2 rest with
        | some (stF, infos) => some (stF, infos)
        | none => none
      | .invalid => none
    | _ => none

/-- Handling of one successful task in the build loop: store the Built state
with the runtime list the task carried, then notify the parents that lie in
the subgraph. -/
def processSuccess (g : BGraph) (subset : List Nat) (states : List PackageState)
    (info : BuildInfo) : Option (List PackageState × List BuildInfo) :=
  notifyParents g (states.set info.node (.built info.package info.runtime))
    ((incomingSources g info.node).filter (fun p => subset.contains p))

/-- Handling of one failed task in the build loop: log and revert the node
to Unbuilt with remaining zero; nothing else changes. -/
def processFailure (states : List PackageState) (info : BuildInfo) : List PackageState :=
  states.set info.node (.unbuilt info.package 0)

/-- Outcome of one build future, as observed by the scheduler loop: the task
returns its BuildInfo, or returns it with an error (the error is only
logged). -/
inductive TaskResult
  | success (info : BuildInfo)
  | failure (info : BuildInfo)
deriving DecidableEq, Repr

/-- The main loop of Builder::build: one completed future is taken from the
stream per iteration (the completion sequence, with its outcomes, is the
explicit list fed in; futures pushed for newly ready parents complete as
later entries of that list).  The loop returns the final states — normally,
whatever mix of successes and failures it saw — once the stream is
exhausted. -/
def buildLoop (g : BGraph) (subset : List Nat) :
    List PackageState → List TaskResult → Option (List PackageState)
  | states, [] => some states
  | states, .success info :: rest =>
    match processSuccess g subset states info with
    | some (st2, _infos) => buildLoop g subset st2 rest
    | none => none
  | states, .failure info :: rest =>
    buildLoop g subset (processFailure states info) rest

/-- Builder::build end to end: seed the states, claim the ready subgraph
nodes, then run the loop against a completion sequence. -/
def buildRun (g : BGraph) (target : Nat) (results : List TaskResult) :
    Option (List PackageState) :=
  let subset := dfsOrder g target
  match initialPass g (initStates g) subset with
  | some (st, _infos) => buildLoop g subset st results
  | none => none

/-- Number of nodes currently in the Building state. -/
def countBuilding (states : List PackageState) : Nat :=
  (states.filter (fun s => match s with | .building => true | _ => false)).length

theorem get?_set_ne {α : Type} (v : α) : ∀ (l : List α) (i j : Nat), i ≠ j →
    (l.set i v).get? j = l.get? j := by
  intro l
  induction l with
  | nil => intro i j _; simp
  | cons a l ih =>
    intro i j hij
    cases i with
    | zero =>
      cases j with
      | zero => exact absurd rfl hij
      | succ j => simp [List.set]
    | succ i =>
      cases j with
      | zero => simp [List.set]
      | succ j => simpa [List.set] using ih i j (fun h => hij (by rw [h]))

theorem get?_set_self {α : Type} (v : α) : ∀ (l : List α) (i : Nat), i < l.length →
    (l.set i v).get? i = some v := by
  intro l
  induction l with
  | nil => intro i h; simp at h
  | cons a l ih =>
    intro i h
    cases i with
    | zero => simp [List.set]
    | succ i => simpa [List.set] using ih i (by simpa using h)

theorem prepare_build_ready {g : BGraph} {states : List PackageState} {node : Nat}
    {st : List PackageState} {info : BuildInfo}
    (h : prepare_build g states node = .ready st info) :
    ∃ package, states.get? node = some (.unbuilt package 0) ∧
      st = states.set node .building ∧ info.node = node ∧ info.package = package ∧
      gatherDeps st (edgesFrom g node) [] [] = some (info.runtime, info.buildtime) := by
  unfold prepare_build at h
  cases hs : states.get? node with
  | none => rw [hs] at h; exact absurd h (by simp)
  | some s =>
    rw [hs] at h
    cases s with
    | building => exact absurd h (by simp)
    | built pk rt => exact absurd h (by simp)
    | unbuilt pk r =>
      cases r with
      | succ r => exact absurd h (by simp)
      | zero =>
        simp only at h
        cases hg : gatherDeps (states.set node .building) (edgesFrom g node) [] [] with
        | none => rw [hg] at h; exact absurd h (by simp)
        | some pr =>
          rw [hg] at h
          obtain ⟨rt, bt⟩ := pr
          simp only [PrepResult.ready.injEq] at h
          obtain ⟨h1, h2⟩ := h
          subst h1
          subst h2
          exact ⟨pk, rfl, rfl, rfl, rfl, hg⟩

theorem notifyParents_preserves_built {g : BGraph} :
    ∀ (parents : List Nat) (states stF : List PackageState) (infos : List BuildInfo)
      {v pk : Nat} {rt : List Nat},
      states.get? v = some (.built pk rt) →
      notifyParents g states parents = some (stF, infos) →
      stF.get? v = some (.built pk rt) := by
  intro parents
  induction parents with
  | nil =>
    intro states stF infos v pk rt hv hrun
    simp only [notifyParents, Option.some_inj] at hrun
    cases hrun
    exact hv
  | cons p rest ih =>
    intro states stF infos v pk rt hv hrun
    simp only [notifyParents] at hrun
    cases hp : states.get? p with
    | none => rw [hp] at hrun; exact absurd hrun (by simp)
    | some s =>
      rw [hp] at hrun
      cases s with
      | building => exact absurd hrun (by simp)
      | built pk2 rt2 => exact absurd hrun (by simp)
      | unbuilt pk2 r2 =>
        simp only at hrun
        have hvp : p ≠ v := by
          intro hpv
          rw [hpv, hv] at hp
          exact absurd hp (by simp)
        have hv2 : (states.set p (.unbuilt pk2 (r2 - 1))).get? v =
            some (.built pk rt) := by rw [get?_set_ne _ _ _ _ hvp]; exact hv
        cases hprep : prepare_build g (states.set p (.unbuilt pk2 (r2 - 1))) p with
        | ready st3 info =>
          rw [hprep] at hrun
          dsimp only at hrun
          obtain ⟨pk3, hs3, hst3, _, _, _⟩ := prepare_build_ready hprep
          have hv3 : st3.get? v = some (.built pk rt) := by
            rw [hst3, get?_set_ne _ _ _ _ hvp]
            exact hv2
          cases hrec : notifyParents g st3 rest with
          | none => rw [hrec] at hrun; exact absurd hrun (by simp)
          | some pr =>
            obtain ⟨stF2, infos2⟩ := pr
            rw [hrec] at hrun
            simp only [Option.some_inj, Prod.mk.injEq] at hrun
            obtain ⟨h1, _⟩ := hrun
            subst h1
            exact ih st3 _ infos2 hv3 hrec
        | notReady =>
          rw [hprep] at hrun
          dsimp only at hrun
          cases hrec : notifyParents g (states.set p (.unbuilt pk2 (r2 - 1))) rest with
          | none => rw [hrec] at hrun; exact absurd hrun (by simp)
          | some pr =>
            obtain ⟨stF2, infos2⟩ := pr
            rw [hrec] at hrun
            simp only [Option.some_inj, Prod.mk.injEq] at hrun
            obtain ⟨h1, _⟩ := hrun
            subst h1
            exact ih _ _ infos2 hv2 hrec
        | invalid =>
          rw [hprep] at hrun
          dsimp only at hrun
          exact absurd hrun (by simp)

/-- C1 (amended): the runtime set a node is stored with when it transitions
to Built is exactly the one prepare_build assembled from the outgoing
Runtime edges (each child's stored runtime followed by the child); the
Builder never adds the node itself, so a node with no outgoing edges is
stored with an empty runtime set — of cardinality 0, not at least 1. -/
theorem built_runtime_omits_self {g : BGraph} {states : List PackageState} {node : Nat}
    {st : List PackageState} {info : BuildInfo}
    (h : prepare_build g states node = .ready st info)
    {subset : List Nat} {states1 st2 : List PackageState} {infos : List BuildInfo}
    (hn : info.node < states1.length)
    (h2 : processSuccess g subset states1 info = some (st2, infos)) :
    st2.get? info.node = some (.built info.package info.runtime) ∧
    (edgesFrom g info.node = [] → info.runtime = []) := by
  constructor
  · exact notifyParents_preserves_built _ _ _ _ (get?_set_self _ _ _ hn) h2
  · intro hedges
    obtain ⟨pk, hs, hst, hnode, hpk, hgather⟩ := prepare_build_ready h
    rw [← hnode, hedges] at hgather
    simp only [gatherDeps, Option.some_inj, Prod.mk.injEq] at hgather
    exact hgather.1.symm

/-- C1 witness: the amended theorem evaluated on the one-node plan. -/
theorem built_runtime_omits_self_witness :
    ([PackageState.built 0 []].get? 0 = some (.built 0 [])) ∧
    (BuildInfo.mk 0 0 [] []).runtime = [] :=
  ⟨(@built_runtime_omits_self ⟨1, []⟩ [.unbuilt 0 0] 0 [.building] ⟨0, 0, [], []⟩ rfl
      [0] [.building] [.built 0 []] [] (by decide) rfl).1,
   (@built_runtime_omits_self ⟨1, []⟩ [.unbuilt 0 0] 0 [.building] ⟨0, 0, [], []⟩ rfl
      [0] [.building] [.built 0 []] [] (by decide) rfl).2 rfl⟩

/-- C1 counterexample: a full Builder run on the one-node plan stores the
target as Built with an empty runtime set — the set does not contain the
node and its cardinality is 0, not at least 1. -/
theorem built_runtime_missing_self_cex :
    buildRun ⟨1, []⟩ 0 [TaskResult.success ⟨0, 0, [], []⟩] =
      some [PackageState.built 0 []] ∧
    (0 ∈ ([] : List Nat)) = False ∧ ([] : List Nat).length = 0 :=
  ⟨rfl, by simp, rfl⟩

/-- The runtime list stored for a node that is Built. -/
def builtRuntime (states : List PackageState) (v : Nat) : Option (List Nat) :=
  match states.get? v with
  | some (.built _ rt) => some rt
  | _ => none

/-- The contribution of a list of edges with a given label to a closure:
for each edge carrying the label, the Built child's stored runtime followed
by the child itself. -/
def closureContrib (states : List PackageState) (t : LinkTime) :
    List (Nat × Nat × LinkTime) → List Nat
  | [] => []
  | e :: rest =>
    if e.2.2 = t then
      (builtRuntime states e.2.1).getD [] ++ e.2.1 :: closureContrib states t rest
    else closureContrib states t rest

theorem builtRuntime_inv {states : List PackageState} {v : Nat} {rt : List Nat}
    (h : builtRuntime states v = some rt) :
    ∃ pk, states.get? v = some (.built pk rt) := by
  unfold builtRuntime at h
  cases hs : states.get? v with
  | none => rw [hs] at h; exact absurd h (by simp)
  | some s =>
    rw [hs] at h
    cases s with
    | built pk rt2 => simp only [Option.some_inj] at h; exact ⟨pk, by rw [h]⟩
    | unbuilt pk r => exact absurd h (by simp)
    | building => exact absurd h (by simp)

theorem gatherDeps_children_built {states : List PackageState} :
    ∀ (es : List (Nat × Nat × LinkTime)) accR accB r,
      gatherDeps states es accR accB = some r →
      ∀ e ∈ es, ∃ rt, builtRuntime states e.2.1 = some rt := by
  intro es
  induction es with
  | nil => intro _ _ _ _ e he; exact absurd he (by simp)
  | cons e rest ih =>
    intro accR accB r hrun f hf
    simp only [gatherDeps] at hrun
    cases hs : states.get? e.2.1 with
    | none => rw [hs] at hrun; exact absurd hrun (by simp)
    | some s =>
      rw [hs] at hrun
      cases s with
      | unbuilt pk r2 => exact absurd hrun (by simp)
      | building => exact absurd hrun (by simp)
      | built pk rt =>
        have hbr : builtRuntime states e.2.1 = some rt := by
          unfold builtRuntime
          rw [hs]
        rcases List.mem_cons.1 hf with hf | hf
        · subst hf; exact ⟨rt, hbr⟩
        · cases ht : e.2.2 with
          | runtime => rw [ht] at hrun; exact ih _ _ _ hrun f hf
          | buildtime => rw [ht] at hrun; exact ih _ _ _ hrun f hf

theorem gatherDeps_eq {states : List PackageState} :
    ∀ (es : List (Nat × Nat × LinkTime)) accR accB,
      (∀ e ∈ es, ∃ rt, builtRuntime states e.2.1 = some rt) →
      gatherDeps states es accR accB =
        some (accR ++ closureContrib states .runtime es,
          accB ++ closureContrib states .buildtime es) := by
  intro es
  induction es with
  | nil => intro accR accB _; simp [gatherDeps, closureContrib]
  | cons e rest ih =>
    intro accR accB hb
    obtain ⟨rt, hbr⟩ := hb e (by simp)
    obtain ⟨pk, hs⟩ := builtRuntime_inv hbr
    have hrest : ∀ f ∈ rest, ∃ rt2, builtRuntime states f.2.1 = some rt2 :=
      fun f hf => hb f (List.mem_cons_of_mem _ hf)
    cases ht : e.2.2 with
    | runtime =>
      simp only [gatherDeps, hs, ht]
      rw [ih _ _ hrest]
      simp [closureContrib, ht, hbr]
    | buildtime =>
      simp only [gatherDeps, hs, ht]
      rw [ih _ _ hrest]
      simp [closureContrib, ht, hbr]

theorem mem_closureContrib {states : List PackageState} {t : LinkTime} :
    ∀ (es : List (Nat × Nat × LinkTime)) (x : Nat),
      (∀ e ∈ es, ∃ rt, builtRuntime states e.2.1 = some rt) →
      (x ∈ closureContrib states t es ↔
        ∃ e ∈ es, e.2.2 = t ∧
          ∃ rt, builtRuntime states e.2.1 = some rt ∧ (x ∈ rt ∨ x = e.2.1)) := by
  intro es
  induction es with
  | nil => intro x _; simp [closureContrib]
  | cons e rest ih =>
    intro x hb
    obtain ⟨rt, hbr⟩ := hb e (by simp)
    have hrest : ∀ f ∈ rest, ∃ rt2, builtRuntime states f.2.1 = some rt2 :=
      fun f hf => hb f (List.mem_cons_of_mem _ hf)
    by_cases ht : e.2.2 = t
    · rw [closureContrib, if_pos ht, hbr]
      simp only [Option.getD_some]
      constructor
      · intro hx
        rcases List.mem_append.1 hx with hx | hx
        · exact ⟨e, List.mem_cons_self _ _, ht, rt, hbr, Or.inl hx⟩
        · rcases List.mem_cons.1 hx with hx | hx
          · exact ⟨e, List.mem_cons_self _ _, ht, rt, hbr, Or.inr hx⟩
          · obtain ⟨f, hf, hft, rt2, hf2, hfx⟩ := (ih x hrest).1 hx
            exact ⟨f, List.mem_cons_of_mem _ hf, hft, rt2, hf2, hfx⟩
      · rintro ⟨f, hf, hft, rt2, hf2, hfx⟩
        rcases List.mem_cons.1 hf with hf | hf
        · subst hf
          rw [hbr] at hf2
          simp only [Option.some_inj] at hf2
          subst hf2
          rcases hfx with hfx | hfx
          · exact List.mem_append.2 (Or.inl hfx)
          · exact List.mem_append.2 (Or.inr (List.mem_cons.2 (Or.inl hfx)))
        · exact List.mem_append.2 (Or.inr (List.mem_cons.2 (Or.inr
            ((ih x hrest).2 ⟨f, hf, hft, rt2, hf2, hfx⟩))))
    · rw [closureContrib, if_neg ht]
      rw [ih x hrest]
      constructor
      · rintro ⟨f, hf, hft, rt2, hf2, hfx⟩
        exact ⟨f, List.mem_cons_of_mem _ hf, hft, rt2, hf2, hfx⟩
      · rintro ⟨f, hf, hft, rt2, hf2, hfx⟩
        rcases List.mem_cons.1 hf with hf | hf
        · subst hf; exact absurd hft ht
        · exact ⟨f, hf, hft, rt2, hf2, hfx⟩

theorem mem_edgesFrom {g : BGraph} {u : Nat} {e : Nat × Nat × LinkTime} :
    e ∈ edgesFrom g u ↔ e ∈ g.edges ∧ e.1 = u := by
  simp [edgesFrom, List.mem_filter]

/-- C2: when prepare_build claims a node, the buildtime list it assembles
holds exactly the members of the union, over the node's outgoing edges
labeled Buildtime, of the Built child's stored runtime plus the child
itself; the runtime list is assembled the same way over the edges labeled
Runtime; consequently for every outgoing Runtime edge to a child v, the
assembled runtime — which is what the node is stored with in Built —
includes all of v's stored runtime and v itself. -/
theorem prepare_build_closures {g : BGraph} {states : List PackageState} {node : Nat}
    {st : List PackageState} {info : BuildInfo}
    (h : prepare_build g states node = .ready st info) :
    (∀ x, x ∈ info.runtime ↔
      ∃ e ∈ g.edges, e.1 = node ∧ e.2.2 = LinkTime.runtime ∧
        ∃ rt, builtRuntime st e.2.1 = some rt ∧ (x ∈ rt ∨ x = e.2.1)) ∧
    (∀ x, x ∈ info.buildtime ↔
      ∃ e ∈ g.edges, e.1 = node ∧ e.2.2 = LinkTime.buildtime ∧
        ∃ rt, builtRuntime st e.2.1 = some rt ∧ (x ∈ rt ∨ x = e.2.1)) ∧
    (∀ (v : Nat) (rt : List Nat), (node, v, LinkTime.runtime) ∈ g.edges →
      builtRuntime st v = some rt →
      (∀ x ∈ rt, x ∈ info.runtime) ∧ v ∈ info.runtime) := by
  obtain ⟨pk, hs, hst, hnode, hpk, hgather⟩ := prepare_build_ready h
  have hb := gatherDeps_children_built _ _ _ _ hgather
  have heq := @gatherDeps_eq st (edgesFrom g node) [] [] hb
  rw [hgather] at heq
  simp only [List.nil_append, Option.some_inj, Prod.mk.injEq] at heq
  obtain ⟨hrt, hbt⟩ := heq
  have memR : ∀ x, x ∈ info.runtime ↔
      ∃ e ∈ g.edges, e.1 = node ∧ e.2.2 = LinkTime.runtime ∧
        ∃ rt, builtRuntime st e.2.1 = some rt ∧ (x ∈ rt ∨ x = e.2.1) := by
    intro x
    rw [hrt, mem_closureContrib _ x hb]
    constructor
    · rintro ⟨e, he, hht, rt2, h2, h3⟩
      obtain ⟨hge, heu⟩ := mem_edgesFrom.1 he
      exact ⟨e, hge, heu, hht, rt2, h2, h3⟩
    · rintro ⟨e, hge, heu, hht, rt2, h2, h3⟩
      exact ⟨e, mem_edgesFrom.2 ⟨hge, heu⟩, hht, rt2, h2, h3⟩
  refine ⟨memR, ?_, ?_⟩
  · intro x
    rw [hbt, mem_closureContrib _ x hb]
    constructor
    · rintro ⟨e, he, hht, rt2, h2, h3⟩
      obtain ⟨hge, heu⟩ := mem_edgesFrom.1 he
      exact ⟨e, hge, heu, hht, rt2, h2, h3⟩
    · rintro ⟨e, hge, heu, hht, rt2, h2, h3⟩
      exact ⟨e, mem_edgesFrom.2 ⟨hge, heu⟩, hht, rt2, h2, h3⟩
  · intro v rt hedge hbrt
    constructor
    · intro x hx
      exact (memR x).2 ⟨(node, v, LinkTime.runtime), hedge, rfl, rfl, rt, hbrt, Or.inl hx⟩
    · exact (memR v).2 ⟨(node, v, LinkTime.runtime), hedge, rfl, rfl, rt, hbrt, Or.inr rfl⟩

/-- C2 witness: the closure theorem evaluated on a plan where node 0 has a
Runtime edge to node 1, whose stored runtime is [2]; the prepared runtime
list of node 0 is [2, 1] and contains both 2 and 1. -/
theorem prepare_build_closures_witness :
    (2 : Nat) ∈ (BuildInfo.mk 0 0 [2, 1] []).runtime ∧
    (1 : Nat) ∈ (BuildInfo.mk 0 0 [2, 1] []).runtime :=
  ⟨((@prepare_build_closures ⟨3, [(0, 1, LinkTime.runtime)]⟩
      [.unbuilt 0 0, .built 1 [2], .built 2 []] 0
      [.building, .built 1 [2], .built 2 []] ⟨0, 0, [2, 1], []⟩ rfl).2.2
      1 [2] (by decide) rfl).1 2 (by decide),
   ((@prepare_build_closures ⟨3, [(0, 1, LinkTime.runtime)]⟩
      [.unbuilt 0 0, .built 1 [2], .built 2 []] 0
      [.building, .built 1 [2], .built 2 []] ⟨0, 0, [2, 1], []⟩ rfl).2.2
      1 [2] (by decide) rfl).2⟩

theorem countBuilding_set_building : ∀ (l : List PackageState) (i pk r : Nat),
    l.get? i = some (.unbuilt pk r) →
    countBuilding (l.set i .building) = countBuilding l + 1 := by
  intro l
  induction l with
  | nil => intro i pk r h; simp at h
  | cons a l ih =>
    intro i pk r h
    cases i with
    | zero =>
      simp only [List.get?_cons_zero, Option.some_inj] at h
      subst h
      simp [countBuilding, List.set, List.filter_cons]
    | succ i =>
      simp only [List.get?_cons_succ] at h
      have := ih i pk r h
      simp only [List.set, countBuilding, List.filter_cons] at this ⊢
      cases ha : (match a with | PackageState.building => true | _ => false) <;>
        simp [ha] at this ⊢ <;> omega

theorem countBuilding_initStates (g : BGraph) : countBuilding (initStates g) = 0 := by
  unfold countBuilding initStates
  generalize List.range g.n = l
  induction l with
  | nil => rfl
  | cons a l ih => simp [List.filter_cons]

theorem countBuilding_initialPass {g : BGraph} :
    ∀ (visit : List Nat) (states st : List PackageState) (infos : List BuildInfo),
      initialPass g states visit = some (st, infos) →
      countBuilding st = countBuilding states + infos.length ∧
      infos.length ≤ visit.length := by
  intro visit
  induction visit with
  | nil =>
    intro states st infos h
    simp only [initialPass, Option.some_inj, Prod.mk.injEq] at h
    obtain ⟨h1, h2⟩ := h
    subst h1
    subst h2
    simp
  | cons u rest ih =>
    intro states st infos h
    simp only [initialPass] at h
    cases hprep : prepare_build g states u with
    | ready st2 info =>
      rw [hprep] at h
      dsimp only at h
      cases hrec : initialPass g st2 rest with
      | none => rw [hrec] at h; exact absurd h (by simp)
      | some pr =>
        obtain ⟨stF, infos2⟩ := pr
        rw [hrec] at h
        simp only [Option.some_inj, Prod.mk.injEq] at h
        obtain ⟨h1, h2⟩ := h
        subst h1
        subst h2
        obtain ⟨pk, hs, hst2, _, _, _⟩ := prepare_build_ready hprep
        have hcount : countBuilding st2 = countBuilding states + 1 := by
          rw [hst2]
          exact countBuilding_set_building states u pk 0 hs
        obtain ⟨ih1, ih2⟩ := ih st2 _ infos2 hrec
        constructor
        · rw [ih1, hcount]
          simp only [List.length_cons]
          omega
        · simp only [List.length_cons]
          omega
    | notReady =>
      rw [hprep] at h
      dsimp only at h
      obtain ⟨ih1, ih2⟩ := ih states st infos h
      exact ⟨ih1, by simp only [List.length_cons]; omega⟩
    | invalid =>
      rw [hprep] at h
      dsimp only at h
      exact absurd h (by simp)

/-- C3 (amended): a node enters Building when the scheduler claims it —
before any semaphore permit is acquired — so after the initial pass of
Builder::build the number of nodes in Building equals the number of build
tasks pushed so far, bounded only by the number of visited subgraph nodes;
it is not bounded by the concurrent permit budget, which limits how many
claimed tasks may simultaneously execute the build body. -/
theorem building_bounded_by_claimed {g : BGraph} {visit : List Nat}
    {st : List PackageState} {infos : List BuildInfo}
    (h : initialPass g (initStates g) visit = some (st, infos)) :
    countBuilding st = infos.length ∧ infos.length ≤ visit.length := by
  obtain ⟨h1, h2⟩ := countBuilding_initialPass visit (initStates g) st infos h
  rw [countBuilding_initStates] at h1
  exact ⟨by simpa using h1, h2⟩

/-- C3 witness: the bound theorem evaluated on the two-leaf fan. -/
theorem building_bounded_by_claimed_witness :
    countBuilding [PackageState.unbuilt 0 2, .building, .building] = 2 ∧
    (2 : Nat) ≤ 3 :=
  @building_bounded_by_claimed ⟨3, [(0, 1, LinkTime.runtime), (0, 2, LinkTime.runtime)]⟩
    [0, 2, 1] [.unbuilt 0 2, .building, .building]
    [⟨2, 2, [], []⟩, ⟨1, 1, [], []⟩] rfl

/-- C3 counterexample: with two leaves feeding one target and a concurrency
budget of one, the initial pass of Builder::build claims both leaves before
any future is polled, so two nodes are simultaneously Building while
concurrent is 1. -/
theorem building_exceeds_concurrent_cex :
    initialPass ⟨3, [(0, 1, LinkTime.runtime), (0, 2, LinkTime.runtime)]⟩
      (initStates ⟨3, [(0, 1, LinkTime.runtime), (0, 2, LinkTime.runtime)]⟩)
      (dfsOrder ⟨3, [(0, 1, LinkTime.runtime), (0, 2, LinkTime.runtime)]⟩ 0) =
      some ([PackageState.unbuilt 0 2, .building, .building],
        [⟨2, 2, [], []⟩, ⟨1, 1, [], []⟩]) ∧
    countBuilding [PackageState.unbuilt 0 2, .building, .building] = 2 ∧
    (BuilderOptions.mk 1).concurrent < 2 :=
  ⟨rfl, rfl, by decide⟩

/-- C5: a failed build task only reverts its own node — the scheduler stores
Unbuilt with the task's package and remaining zero at that node, every other
node (sibling branches, parents) keeps its exact previous state, a parent
that was Unbuilt stays Unbuilt, the loop moves on to the next completed task
instead of aborting, and once the completion stream drains the loop returns
its states normally. -/
theorem failure_isolated :
    (∀ (states : List PackageState) (info : BuildInfo), info.node < states.length →
      (processFailure states info).get? info.node = some (.unbuilt info.package 0)) ∧
    (∀ (states : List PackageState) (info : BuildInfo) (m : Nat), m ≠ info.node →
      (processFailure states info).get? m = states.get? m) ∧
    (∀ (states : List PackageState) (info : BuildInfo) (p pk r : Nat), p ≠ info.node →
      states.get? p = some (.unbuilt pk r) →
      (processFailure states info).get? p = some (.unbuilt pk r)) ∧
    (∀ (g : BGraph) (subset : List Nat) (states : List PackageState)
      (info : BuildInfo) (rest : List TaskResult),
      buildLoop g subset states (.failure info :: rest) =
        buildLoop g subset (processFailure states info) rest) ∧
    (∀ (g : BGraph) (subset : List Nat) (states : List PackageState),
      buildLoop g subset states [] = some states) := by
  refine ⟨?_, ?_, ?_, ?_, ?_⟩
  · intro states info hn
    exact get?_set_self _ _ _ hn
  · intro states info m hm
    exact get?_set_ne _ _ _ _ (fun h => hm h.symm)
  · intro states info p pk r hp hs
    rw [processFailure, get?_set_ne _ _ _ _ (fun h => hp h.symm)]
    exact hs
  · intro g subset states info rest
    rfl
  · intro g subset states
    rfl

/-- C5 witness: the failure-isolation theorem evaluated on a three-node
state where node 1 fails while node 2 is mid-build and node 0 awaits both. -/
theorem failure_isolated_witness :
    ((processFailure [.unbuilt 0 2, .building, .building] ⟨1, 1, [], []⟩).get? 1 =
      some (.unbuilt 1 0)) ∧
    ((processFailure [.unbuilt 0 2, .building, .building] ⟨1, 1, [], []⟩).get? 2 =
      some PackageState.building) ∧
    ((processFailure [.unbuilt 0 2, .building, .building] ⟨1, 1, [], []⟩).get? 0 =
      some (.unbuilt 0 2)) ∧
    (buildLoop ⟨3, []⟩ [0, 1, 2] [.unbuilt 0 2, .building, .building]
      [.failure ⟨1, 1, [], []⟩] =
      buildLoop ⟨3, []⟩ [0, 1, 2]
        (processFailure [.unbuilt 0 2, .building, .building] ⟨1, 1, [], []⟩) []) ∧
    (buildLoop ⟨3, []⟩ [0, 1, 2]
      (processFailure [.unbuilt 0 2, .building, .building] ⟨1, 1, [], []⟩) [] =
      some (processFailure [.unbuilt 0 2, .building, .building] ⟨1, 1, [], []⟩)) :=
  ⟨failure_isolated.1 [.unbuilt 0 2, .building, .building] ⟨1, 1, [], []⟩ (by decide),
   failure_isolated.2.1 [.unbuilt 0 2, .building, .building] ⟨1, 1, [], []⟩ 2 (by decide),
   failure_isolated.2.2.1 [.unbuilt 0 2, .building, .building] ⟨1, 1, [], []⟩ 0 0 2
     (by decide) rfl,
   failure_isolated.2.2.2.1 ⟨3, []⟩ [0, 1, 2] [.unbuilt 0 2, .building, .building]
     ⟨1, 1, [], []⟩ [],
   failure_isolated.2.2.2.2 ⟨3, []⟩ [0, 1, 2]
     (processFailure [.unbuilt 0 2, .building, .building] ⟨1, 1, [], []⟩)⟩

/-! ## The build task and the Resolver cache path

build_impl_impl (src/engine/src/builder.rs) is a straight-line async block;
its side effects, in program order, are captured as an effect trace.  The
Store does not appear in it — the Builder does not even hold a Store
reference — and the storeLookup effect is included in the alphabet exactly
so its absence is expressible.

The cache consultation the spec describes lives in the Resolver iteration
(src/engine/src/modules/resolver.rs), which keys the Store by the package's
structural hash (modules/store/local.rs hashes the Package itself); that
per-node match is modelled as resolveNode. -/

inductive BuildEffect
  | acquirePermit
  | createEnvDir (node : Nat)
  | registerExecutors
  | storeLookup (package : Nat)
  | runBuildThunk (package : Nat)
  | destroyExecutors
  | releasePermit
deriving DecidableEq, Repr

/-- Effect trace of build_impl_impl: await the semaphore permit, create the
environment directory named by the node index, register the executor
factories, run the package's build thunk, destroy the executors, drop the
permit.  No store operation occurs. -/
def build_impl_impl (info : BuildInfo) : List BuildEffect :=
  [.acquirePermit, .createEnvDir info.node, .registerExecutors,
   .runBuildThunk info.package, .destroyExecutors, .releasePermit]

/-- A row of the packages table of the modules-iteration local store:
structural hash of the package, artifact hash, creation time. -/
structure MStorePackage where
  hash : Nat
  artifact : Nat
  createdAt : Nat
deriving DecidableEq, Repr

/-- The modules-iteration local store as the Resolver sees it: the packages
table in insertion order and the set of artifact hashes whose content
directories exist on disk. -/
structure MStore where
  packagesTable : List MStorePackage
  contentDirs : List Nat
deriving DecidableEq, Repr

inductive MStoreError
  | packageNotFound (hash : Nat)
  | artifactNotFound (artifact : Nat)
deriving DecidableEq, Repr

/-- Store::package of the modules iteration: first matching row for the
package's structural hash, else PackageNotFound. -/
def MStore.package (st : MStore) (h : Nat) : Except MStoreError MStorePackage :=
  match st.packagesTable.find? (fun r => r.hash == h) with
  | some r => .ok r
  | none => .error (.packageNotFound h)

/-- Store::content of the modules iteration: the on-disk directory of an
artifact, or ArtifactNotFound. -/
def MStore.content (st : MStore) (a : Nat) : Except MStoreError Nat :=
  if st.contentDirs.contains a then .ok a else .error (.artifactNotFound a)

/-- The pkg_content closure of Resolver::resolve: look the package up by
structural hash, then resolve its artifact to a content path. -/
def pkg_content (st : MStore) (h : Nat) : Except MStoreError Nat :=
  match st.package h with
  | .ok p => st.content p.artifact
  | .error e => .error e

/-- The per-node cache match of Resolver::resolve: on a hit the cached
content path is used and nothing is built; on PackageNotFound the package is
built (the returned flag records that the build thunk ran), its output is
registered as an artifact and bound to the package hash; any other store
error propagates.  buildOutput stands for the artifact hash of the built
output directory. -/
def resolveNode (st : MStore) (h buildOutput now : Nat) :
    Except MStoreError (MStore × Bool × Nat) :=
  match pkg_content st h with
  | .ok content => .ok (st, false, content)
  | .error (.packageNotFound _) =>
    let contentDirs :=
      if st.contentDirs.contains buildOutput then st.contentDirs
      else st.contentDirs ++ [buildOutput]
    .ok (⟨st.packagesTable ++ [⟨h, buildOutput, now⟩], contentDirs⟩, true, buildOutput)
  | .error e => .error e

/-- C4 (amended): the Builder's build task consults no store and always runs
the build thunk — its effect trace contains the thunk invocation and no
store lookup, whatever the store holds (the Builder is not even handed one).
The cache consultation exists in the Resolver module instead: it keys the
store by the package's structural hash, and when a binding for that hash
exists with its artifact content on disk it skips the build and adopts the
stored artifact's path, leaving the store unchanged; on PackageNotFound it
builds and registers. -/
theorem cache_consultation_location :
    (∀ info : BuildInfo,
      BuildEffect.runBuildThunk info.package ∈ build_impl_impl info ∧
      (build_impl_impl info).all
        (fun e => match e with | .storeLookup _ => false | _ => true) = true) ∧
    (∀ (st : MStore) (h out now : Nat) (row : MStorePackage),
      st.packagesTable.find? (fun r => r.hash == h) = some row →
      st.contentDirs.contains row.artifact = true →
      resolveNode st h out now = .ok (st, false, row.artifact)) ∧
    (∀ (st : MStore) (h out now : Nat),
      st.packagesTable.find? (fun r => r.hash == h) = none →
      resolveNode st h out now =
        .ok (⟨st.packagesTable ++ [⟨h, out, now⟩],
          if st.contentDirs.contains out then st.contentDirs
          else st.contentDirs ++ [out]⟩, true, out)) := by
  refine ⟨?_, ?_, ?_⟩
  · intro info
    exact ⟨by simp [build_impl_impl], rfl⟩
  · intro st h out now row hrow hcontent
    have hmem : row.artifact ∈ st.contentDirs := by simpa using hcontent
    simp [resolveNode, pkg_content, MStore.package, hrow, MStore.content, hmem]
  · intro st h out now hrow
    simp [resolveNode, pkg_content, MStore.package, hrow]

/-- C4 witness: the theorem evaluated concretely — a task trace for package
5, a cache hit on a store binding hash 7 to artifact 9, and a cache miss on
an empty store. -/
theorem cache_consultation_location_witness :
    (BuildEffect.runBuildThunk 5 ∈ build_impl_impl ⟨3, 5, [], []⟩ ∧
      (build_impl_impl ⟨3, 5, [], []⟩).all
        (fun e => match e with | .storeLookup _ => false | _ => true) = true) ∧
    resolveNode ⟨[⟨7, 9, 0⟩], [9]⟩ 7 11 1 = .ok (⟨[⟨7, 9, 0⟩], [9]⟩, false, 9) ∧
    resolveNode ⟨[], []⟩ 7 11 1 = .ok (⟨[⟨7, 11, 1⟩], [11]⟩, true, 11) :=
  ⟨cache_consultation_location.1 ⟨3, 5, [], []⟩,
   cache_consultation_location.2.1 ⟨[⟨7, 9, 0⟩], [9]⟩ 7 11 1 ⟨7, 9, 0⟩ rfl rfl,
   cache_consultation_location.2.2 ⟨[], []⟩ 7 11 1 rfl⟩

/-- C4 counterexample: the trace of the build task for a node whose package
has a current store binding still runs the build thunk and performs no store
lookup — the claimed cache check does not exist in build_impl_impl. -/
theorem builder_no_cache_cex :
    BuildEffect.runBuildThunk 5 ∈ build_impl_impl ⟨3, 5, [], []⟩ ∧
    (build_impl_impl ⟨3, 5, [], []⟩).all
      (fun e => match e with | .storeLookup _ => false | _ => true) = true ∧
    (build_impl_impl ⟨3, 5, [], []⟩).length = 6 := by
  exact ⟨by decide, rfl, rfl⟩

/-! ## The Store — src/engine/src/store.rs and src/engine/src/store/local.rs

A directory is its canonical content: the list of entries with their
relative path (as bytes), permission mode, group and user ids, and
contents.  hash_directory walks regular files in sorted order and feeds
each one's path, big-endian metadata fields and contents to the hasher;
blake3 itself is an opaque function of the accumulated byte stream and is
passed as a parameter.  The SQLite tables are row lists in insertion order;
a query without an ordering clause returns the first matching row. -/

/-- One directory entry as the hashing walk sees it; isFile distinguishes
regular files from the skipped kinds (symlinks, directories, ...). -/
structure FileEntry where
  path : List Nat
  mode : Nat
  gid : Nat
  uid : Nat
  contents : List Nat
  isFile : Bool
deriving DecidableEq, Repr

/-- Big-endian byte encoding of a machine integer of w bytes. -/
def beBytes (w x : Nat) : List Nat :=
  (List.range w).reverse.map (fun i => x / 256 ^ i % 256)

/-- Byte-wise lexicographic order on paths (the sorted file-name order of
the walk). -/
def lexLe : List Nat → List Nat → Bool
  | [], _ => true
  | _ :: _, [] => false
  | x :: xs, y :: ys => if x < y then true else if y < x then false else lexLe xs ys

/-- Insertion sort of directory entries by path. -/
def insertByPath (f : FileEntry) : List FileEntry → List FileEntry
  | [] => [f]
  | g :: rest => if lexLe f.path g.path then f :: g :: rest else g :: insertByPath f rest

def sortByPath : List FileEntry → List FileEntry
  | [] => []
  | f :: rest => insertByPath f (sortByPath rest)

/-- The bytes hash_directory feeds for one regular file: relative path,
big-endian mode, gid, uid (u32) and length (u64), then the contents. -/
def fileBytes (f : FileEntry) : List Nat :=
  f.path ++ beBytes 4 f.mode ++ beBytes 4 f.gid ++ beBytes 4 f.uid ++
    beBytes 8 f.contents.length ++ f.contents

/-- The canonical byte stream of a directory: regular files only, in sorted
path order. -/
def dirStream (d : List FileEntry) : List Nat :=
  ((sortByPath d).filter (fun f => f.isFile)).flatMap fileBytes

/-- hash_directory: the blake3 hash of the canonical byte stream. -/
def hash_directory (blake3 : List Nat → Nat) (d : List FileEntry) : Nat :=
  blake3 (dirStream d)

/-- A StorePackage row as the local store returns it. -/
structure SStorePackage where
  package : PackageId
  artifact : Nat
  createdAt : Nat
deriving DecidableEq, Repr

/-- A StoreArtifact record. -/
structure SArtifact where
  artifact : Nat
  createdAt : Nat
deriving DecidableEq, Repr

/-- The two tables of store.db: packages rows are (rendered package id,
artifact, created_at) and artifacts rows are (artifact, created_at). -/
structure SDb where
  packagesTable : List (List Char × Nat × Nat)
  artifactsTable : List (Nat × Nat)
deriving DecidableEq, Repr

/-- The local store: its database and the content directories on disk,
keyed by artifact hash. -/
structure LocalStoreM where
  db : SDb
  content : List (Nat × List FileEntry)
deriving DecidableEq, Repr

inductive StoreErr
  | packageNotFound (id : PackageId)
  | artifactNotFound (artifact : Nat)
  | externalError
deriving DecidableEq, Repr

/-- Modelled from the spec: the SQL initialization file of the local store
(store/local/initialize.sql) is not under src, so the table constraints
follow spec section 6 — packages(package TEXT, artifact BLOB, created_at
TIMESTAMP) has no uniqueness constraint, hence its INSERT with ON CONFLICT
DO NOTHING always appends a row. -/
def insertPackageRow (t : List (List Char × Nat × Nat)) (row : List Char × Nat × Nat) :
    List (List Char × Nat × Nat) :=
  t ++ [row]

/-- Modelled from the spec: with the initialization file absent from src,
artifacts(artifact BLOB PRIMARY KEY, created_at TIMESTAMP) follows spec
section 6, so its INSERT with ON CONFLICT DO NOTHING ignores a duplicate
artifact id. -/
def insertArtifactRow (t : List (Nat × Nat)) (a now : Nat) : List (Nat × Nat) :=
  if t.any (fun r => r.1 == a) then t else t ++ [(a, now)]

/-- LocalStore::package: the first packages row whose package column equals
the rendered id, its stored string parsed back into a PackageId (a parse
failure would surface as an external error), else PackageNotFound. -/
def LocalStoreM.package (s : LocalStoreM) (id : PackageId) :
    Except StoreErr SStorePackage :=
  match s.db.packagesTable.find? (fun r => r.1 == PackageId.render id) with
  | none => .error (.packageNotFound id)
  | some r =>
    match PackageId.fromStr r.1 with
    | none => .error .externalError
    | some pid => .ok ⟨pid, r.2.1, r.2.2⟩

/-- LocalStore::register_package: look the id up first; only when no binding
for the id exists is a row (rendered id, artifact, now) inserted and the
fresh StorePackage returned; otherwise the lookup's result — the existing
binding or its error — is returned unchanged and nothing is written. -/
def LocalStoreM.register_package (s : LocalStoreM) (id : PackageId)
    (artifact now : Nat) : Except StoreErr (LocalStoreM × SStorePackage) :=
  match s.package id with
  | .error (.packageNotFound _) =>
    .ok (⟨⟨insertPackageRow s.db.packagesTable (PackageId.render id, artifact, now),
      s.db.artifactsTable⟩, s.content⟩, ⟨id, artifact, now⟩)
  | .error e => .error e
  | .ok existing => .ok (s, existing)

/-- LocalStore::artifact: the first artifacts row for the hash, else
ArtifactNotFound. -/
def LocalStoreM.artifact (s : LocalStoreM) (a : Nat) : Except StoreErr SArtifact :=
  match s.db.artifactsTable.find? (fun r => r.1 == a) with
  | none => .error (.artifactNotFound a)
  | some r => .ok ⟨r.1, r.2⟩

/-- LocalStore::register_artifact: hash the directory; only when the hash is
absent is the directory renamed into the content store, a row inserted, and
the fresh StoreArtifact returned; otherwise the lookup's result — the
existing record or its error — is returned unchanged and nothing moves. -/
def LocalStoreM.register_artifact (blake3 : List Nat → Nat) (s : LocalStoreM)
    (d : List FileEntry) (now : Nat) : Except StoreErr (LocalStoreM × SArtifact) :=
  let hash := hash_directory blake3 d
  match s.artifact hash with
  | .error (.artifactNotFound _) =>
    .ok (⟨⟨s.db.packagesTable, insertArtifactRow s.db.artifactsTable hash now⟩,
      s.content ++ [(hash, d)]⟩, ⟨hash, now⟩)
  | .error e => .error e
  | .ok existing => .ok (s, existing)

theorem find?_append_none {α : Type} (p : α → Bool) {l1 : List α} (l2 : List α)
    (h : l1.find? p = none) : (l1 ++ l2).find? p = l2.find? p := by
  induction l1 with
  | nil => simp
  | cons a l ih =>
    cases hp : p a
    · rw [List.find?_cons_of_neg _ (by simp [hp])] at h
      rw [List.cons_append, List.find?_cons_of_neg _ (by simp [hp])]
      exact ih h
    · rw [List.find?_cons_of_pos _ hp] at h
      exact absurd h (by simp)

theorem register_artifact_cases (blake3 : List Nat → Nat) (s : LocalStoreM)
    (d : List FileEntry) (now : Nat) :
    (∃ r, s.db.artifactsTable.find? (fun row => row.1 == hash_directory blake3 d) = some r ∧
      LocalStoreM.register_artifact blake3 s d now = .ok (s, ⟨r.1, r.2⟩) ∧
      r.1 = hash_directory blake3 d) ∨
    (s.db.artifactsTable.find? (fun row => row.1 == hash_directory blake3 d) = none ∧
      LocalStoreM.register_artifact blake3 s d now =
        .ok (⟨⟨s.db.packagesTable,
          insertArtifactRow s.db.artifactsTable (hash_directory blake3 d) now⟩,
          s.content ++ [(hash_directory blake3 d, d)]⟩,
          ⟨hash_directory blake3 d, now⟩)) := by
  cases hf : s.db.artifactsTable.find? (fun row => row.1 == hash_directory blake3 d) with
  | some r =>
    left
    refine ⟨r, rfl, ?_, ?_⟩
    · simp [LocalStoreM.register_artifact, LocalStoreM.artifact, hf]
    · simpa using List.find?_some hf
  | none =>
    right
    exact ⟨rfl, by simp [LocalStoreM.register_artifact, LocalStoreM.artifact, hf]⟩

/-- C9: register_artifact always succeeds and the ArtifactId it returns is
the canonical directory hash (it returns h exactly when hash_directory of
the submitted directory is h); and a second registration of identical
directory content is a no-op — the store is unchanged and the existing
record, with the same ArtifactId, is returned. -/
theorem register_artifact_roundtrip :
    (∀ (blake3 : List Nat → Nat) (s : LocalStoreM) (d : List FileEntry) (now : Nat),
      ∃ s2 sa, LocalStoreM.register_artifact blake3 s d now = .ok (s2, sa) ∧
        ∀ h2, (sa.artifact = h2 ↔ hash_directory blake3 d = h2)) ∧
    (∀ (blake3 : List Nat → Nat) (s : LocalStoreM) (d : List FileEntry) (t1 t2 : Nat)
      (s1 : LocalStoreM) (r1 : SArtifact),
      LocalStoreM.register_artifact blake3 s d t1 = .ok (s1, r1) →
      LocalStoreM.register_artifact blake3 s1 d t2 = .ok (s1, r1)) := by
  constructor
  · intro blake3 s d now
    rcases register_artifact_cases blake3 s d now with ⟨r, _, heq, hr⟩ | ⟨_, heq⟩
    · exact ⟨s, ⟨r.1, r.2⟩, heq, fun h2 => by simp [hr]⟩
    · exact ⟨_, ⟨hash_directory blake3 d, now⟩, heq, fun h2 => by simp⟩
  · intro blake3 s d t1 t2 s1 r1 h1
    rcases register_artifact_cases blake3 s d t1 with ⟨r, hf, heq, hr⟩ | ⟨hf, heq⟩
    · rw [heq] at h1
      simp only [Except.ok.injEq, Prod.mk.injEq] at h1
      obtain ⟨hs1, hr1⟩ := h1
      subst hs1
      subst hr1
      rcases register_artifact_cases blake3 s d t2 with ⟨r2, hf2, heq2, hr2⟩ | ⟨hf2, heq2⟩
      · rw [hf] at hf2
        simp only [Option.some_inj] at hf2
        subst hf2
        exact heq2
      · rw [hf] at hf2
        exact absurd hf2 (by simp)
    · rw [heq] at h1
      simp only [Except.ok.injEq, Prod.mk.injEq] at h1
      obtain ⟨hs1, hr1⟩ := h1
      subst hs1
      subst hr1
      have hany : s.db.artifactsTable.any
          (fun r => r.1 == hash_directory blake3 d) = false := by
        rw [List.any_eq_false]
        intro r hr
        have := List.find?_eq_none.1 hf r hr
        simpa using this
      have hf2 : (insertArtifactRow s.db.artifactsTable (hash_directory blake3 d) t1).find?
          (fun row => row.1 == hash_directory blake3 d) =
          some (hash_directory blake3 d, t1) := by
        rw [insertArtifactRow, if_neg (by simp [hany]), find?_append_none _ _ hf]
        simp
      rcases register_artifact_cases blake3
          ⟨⟨s.db.packagesTable,
            insertArtifactRow s.db.artifactsTable (hash_directory blake3 d) t1⟩,
            s.content ++ [(hash_directory blake3 d, d)]⟩ d t2 with
        ⟨r2, hf3, heq2, hr2⟩ | ⟨hf3, heq2⟩
      · rw [hf2] at hf3
        simp only [Option.some_inj] at hf3
        subst hf3
        exact heq2
      · rw [hf2] at hf3
        exact absurd hf3 (by simp)

/-- C9 witness: the round-trip theorem evaluated with a concrete hash
function (the stream length) on a one-file directory against the empty
store. -/
theorem register_artifact_roundtrip_witness :
    LocalStoreM.register_artifact (fun l => l.length) ⟨⟨[], []⟩, []⟩
      [⟨[7], 1, 2, 3, [9], true⟩] 5 =
      .ok (⟨⟨[], [(22, 5)]⟩, [(22, [⟨[7], 1, 2, 3, [9], true⟩])]⟩, ⟨22, 5⟩) ∧
    LocalStoreM.register_artifact (fun l => l.length)
      ⟨⟨[], [(22, 5)]⟩, [(22, [⟨[7], 1, 2, 3, [9], true⟩])]⟩
      [⟨[7], 1, 2, 3, [9], true⟩] 8 =
      .ok (⟨⟨[], [(22, 5)]⟩, [(22, [⟨[7], 1, 2, 3, [9], true⟩])]⟩, ⟨22, 5⟩) :=
  ⟨by rfl,
   register_artifact_roundtrip.2 (fun l => l.length) ⟨⟨[], []⟩, []⟩
     [⟨[7], 1, 2, 3, [9], true⟩] 5 8
     ⟨⟨[], [(22, 5)]⟩, [(22, [⟨[7], 1, 2, 3, [9], true⟩])]⟩ ⟨22, 5⟩ (by rfl)⟩

/-- C8 (amended): register_package inserts the binding (id, artifact, now)
only when no binding for the id exists; when any binding for the id exists
it writes nothing and returns that binding (the first matching row) — the
operation is idempotent on the id alone, so registering the same id again
with a different artifact records no additional binding, and lookup is the
single-row package(id) query, not an ordered iterator. -/
theorem register_package_id_idempotent :
    (∀ (s : LocalStoreM) (id : PackageId) (a now : Nat),
      s.package id = .error (.packageNotFound id) →
      s.register_package id a now =
        .ok (⟨⟨insertPackageRow s.db.packagesTable (PackageId.render id, a, now),
          s.db.artifactsTable⟩, s.content⟩, ⟨id, a, now⟩)) ∧
    (∀ (s : LocalStoreM) (id : PackageId) (a now : Nat) (existing : SStorePackage),
      s.package id = .ok existing →
      s.register_package id a now = .ok (s, existing)) := by
  constructor
  · intro s id a now h
    simp [LocalStoreM.register_package, h]
  · intro s id a now existing h
    simp [LocalStoreM.register_package, h]

/-- C8 witness: the idempotence theorem evaluated concretely — a fresh id is
inserted, and re-registering it with a different artifact returns the first
binding unchanged. -/
theorem register_package_id_idempotent_witness :
    LocalStoreM.register_package ⟨⟨[], []⟩, []⟩ ⟨['p'], [['n']]⟩ 1 10 =
      .ok (⟨⟨[(['p', '@', 'n'], 1, 10)], []⟩, []⟩, ⟨⟨['p'], [['n']]⟩, 1, 10⟩) ∧
    LocalStoreM.register_package ⟨⟨[(['p', '@', 'n'], 1, 10)], []⟩, []⟩
      ⟨['p'], [['n']]⟩ 2 20 =
      .ok (⟨⟨[(['p', '@', 'n'], 1, 10)], []⟩, []⟩, ⟨⟨['p'], [['n']]⟩, 1, 10⟩) :=
  ⟨register_package_id_idempotent.1 ⟨⟨[], []⟩, []⟩ ⟨['p'], [['n']]⟩ 1 10 rfl,
   register_package_id_idempotent.2 ⟨⟨[(['p', '@', 'n'], 1, 10)], []⟩, []⟩
     ⟨['p'], [['n']]⟩ 2 20 ⟨⟨['p'], [['n']]⟩, 1, 10⟩ rfl⟩

/-- C8 counterexample: after (id, artifact 1) is registered, registering the
same id with artifact 2 inserts nothing — the table keeps its single row and
the old binding (artifact 1) is returned — so registration is idempotent on
the id alone, not on the pair (id, artifact). -/
theorem register_package_second_artifact_cex :
    LocalStoreM.register_package ⟨⟨[(['p', '@', 'n'], 1, 10)], []⟩, []⟩
      ⟨['p'], [['n']]⟩ 2 20 =
      .ok (⟨⟨[(['p', '@', 'n'], 1, 10)], []⟩, []⟩, ⟨⟨['p'], [['n']]⟩, 1, 10⟩) ∧
    (2 : Nat) ≠ 1 ∧
    ([(['p', '@', 'n'], 1, 10)] : List (List Char × Nat × Nat)).length = 1 :=
  ⟨rfl, by decide, rfl⟩
